import Mathlib

/-!
Verification of the PLDC quiz application core (src/src/App.tsx and its type
declarations).  The definitions below are a shallow embedding of the
TypeScript source: pure functions are translated directly, the React state
updates of the grading handlers are modelled as explicit state-passing over a
session-state record, JavaScript objects used as string-keyed dictionaries are
modelled as functions from String to Option values, and the nondeterministic
randomness source of the Fisher-Yates shuffle is passed in explicitly as a
list of natural numbers (one draw per loop iteration, reduced modulo the
current bound exactly as Math.floor(Math.random() * (i + 1)) always yields a
value in 0..i).
-/

namespace PLDC

/-! ### Text normalizer (App.tsx, normalize, lines 39-48)

The JavaScript pipeline is: trim, toLowerCase, normalize("NFD"),
strip combining marks U+0300..U+036F, replace any character outside
a-z, 0-9 and whitespace by a space, collapse whitespace runs to one
space, trim again.  Strings are modelled as their lists of characters.
-/

/-- Whitespace class of the JavaScript regular-expression escape backslash-s
and of String.prototype.trim, restricted to the code points that can occur
here: space, tab, line feed, vertical tab, form feed, carriage return,
no-break space and the byte-order mark. -/
def isWsB (c : Char) : Bool :=
  c.toNat == 32 || c.toNat == 9 || c.toNat == 10 || c.toNat == 11 ||
  c.toNat == 12 || c.toNat == 13 || c.toNat == 160 || c.toNat == 65279

/-- Lowercase ASCII letter, the a-z part of the character class of the
source regular expressions. -/
def isLowerB (c : Char) : Bool := 97 ≤ c.toNat && c.toNat ≤ 122

/-- ASCII digit, the 0-9 part of the character class. -/
def isDigitB (c : Char) : Bool := 48 ≤ c.toNat && c.toNat ≤ 57

/-- Characters kept verbatim by the replacement with a space:
lowercase letters and digits. -/
def isKeepB (c : Char) : Bool := isLowerB c || isDigitB c

/-- Combining diacritical mark range U+0300..U+036F stripped by the source. -/
def isCombiningB (c : Char) : Bool := 768 ≤ c.toNat && c.toNat ≤ 879

/-- Model of String.prototype.toLowerCase on the code points this
development evaluates: ASCII uppercase letters are shifted to lowercase,
every other character is left unchanged. -/
def toLowerChar (c : Char) : Char :=
  if 65 ≤ c.toNat ∧ c.toNat ≤ 90 then Char.ofNat (c.toNat + 32) else c

/-- Canonical decomposition table for normalize("NFD"), restricted to the
precomposed characters exercised by this development (marks are emitted in
canonical combining-class order, as NFD requires). -/
def nfdDecomp : List (Char × List Char) :=
  [('à', ['a', Char.ofNat 768]),
   ('á', ['a', Char.ofNat 769]),
   ('è', ['e', Char.ofNat 768]),
   ('é', ['e', Char.ofNat 769]),
   ('ì', ['i', Char.ofNat 768]),
   ('í', ['i', Char.ofNat 769]),
   ('ò', ['o', Char.ofNat 768]),
   ('ó', ['o', Char.ofNat 769]),
   ('ù', ['u', Char.ofNat 768]),
   ('ú', ['u', Char.ofNat 769]),
   ('ộ', ['o', Char.ofNat 803, Char.ofNat 770])]

/-- Per-character canonical decomposition: identity on ASCII (as Unicode NFD
is), table lookup above the ASCII range. -/
def nfdChar (c : Char) : List Char :=
  if c.toNat < 128 then [c] else (nfdDecomp.lookup c).getD [c]

/-- Replacement of every character outside a-z, 0-9 and whitespace by a
space, the second replace of the source. -/
def keepOrSpace (c : Char) : Char :=
  if isKeepB c || isWsB c then c else ' '

/-- Collapsing of every maximal whitespace run into a single space, the
third replace of the source.  The boolean flag records whether the current
position is inside a whitespace run whose single space was already
emitted. -/
def collapseAux : Bool → List Char → List Char
  | _, [] => []
  | inRun, c :: cs =>
    if isWsB c then
      if inRun then collapseAux true cs else ' ' :: collapseAux true cs
    else c :: collapseAux false cs

/-- Whitespace-run collapsing from the initial (not-in-run) state. -/
def collapseWs (l : List Char) : List Char := collapseAux false l

/-- String.prototype.trim: drop whitespace from both ends. -/
def trimList (l : List Char) : List Char :=
  ((l.dropWhile isWsB).reverse.dropWhile isWsB).reverse

/-- The normalize pipeline of App.tsx lines 39-48 on character lists. -/
def normChars (l : List Char) : List Char :=
  trimList (collapseWs
    (((((trimList l).map toLowerChar).map nfdChar).flatten.filter
        (fun c => !isCombiningB c)).map keepOrSpace))

/-- Normalize text for comparison (App.tsx, normalize). -/
def normalize (s : String) : String := (normChars s.data).asString

/-! ### Data model (src/unnamed/part_000, the types module) -/

/-- Question types matching data.json. -/
inductive QType where
  | true_false
  | multiple_choice_one_correct
  | multiple_choice_best_answer
  | fill_in_blank
deriving DecidableEq

/-- Raw option entry of the input dataset. -/
structure RawOption where
  id : String
  text : String
  is_correct : Bool
deriving DecidableEq

/-- Raw question entry of the input dataset. -/
structure RawQuestion where
  id : Int
  type : QType
  type_description : String
  question : String
  answer : Option String := none
  options : Option (List RawOption) := none
  explanation : Option String := none
deriving DecidableEq

/-- Processed question for the app. -/
structure Question where
  id : String
  type : QType
  typeLabel : String
  prompt : String
  options : Option (List String) := none
  correctIndex : Option Int := none
  correctAnswer : Option String := none
  explanation : Option String := none
deriving DecidableEq

/-- Filter configuration: question-type filter. -/
inductive TypeFilter where
  | all
  | only (t : QType)
deriving DecidableEq

/-- Filter configuration: session mode. -/
inductive Mode where
  | random20
  | allFiltered
  | wrongOnly
deriving DecidableEq

/-- Filter configuration (the Filters type of the source). -/
structure Filters where
  type : TypeFilter
  mode : Mode
  shuffle : Bool
deriving DecidableEq

/-- Durable progress store: the four string-keyed dictionaries of the
Progress type, modelled as partial maps (absent key = none). -/
structure Progress where
  seen : String → Option Nat
  wrong : String → Option Nat
  correct : String → Option Nat
  starred : String → Option Bool

/-- The empty progress store. -/
def emptyProgress : Progress :=
  ⟨fun _ => none, fun _ => none, fun _ => none, fun _ => none⟩

/-- Dictionary update, the spread-assignment of the source handlers. -/
def setEntry (m : String → Option Nat) (k : String) (v : Nat) :
    String → Option Nat :=
  fun q => if q = k then some v else m q

/-! ### Question bank loader (App.tsx, processQuestions, lines 8-33) -/

/-- Array.prototype.findIndex: index of the first element satisfying the
predicate, -1 when none does; the accumulator carries the index offset. -/
def jsFindIndexFrom (p : α → Bool) : List α → Nat → Int
  | [], _ => -1
  | a :: as, i => if p a then (i : Int) else jsFindIndexFrom p as (i + 1)

/-- Array.prototype.findIndex from offset zero. -/
def jsFindIndex (p : α → Bool) (l : List α) : Int := jsFindIndexFrom p l 0

/-- Body of the map in processQuestions: one raw entry to one question. -/
def processQuestion (q : RawQuestion) : Question :=
  let base : Question :=
    { id := toString q.id, type := q.type, typeLabel := q.type_description,
      prompt := q.question, explanation := q.explanation }
  if q.type = QType.fill_in_blank then
    { base with correctAnswer := q.answer }
  else
    match q.options with
    | some opts =>
      { base with options := some (opts.map RawOption.text),
                  correctIndex := some (jsFindIndex RawOption.is_correct opts) }
    | none => base

/-- Convert raw JSON to processed questions (App.tsx, processQuestions). -/
def processQuestions (raw : List RawQuestion) : List Question :=
  raw.map processQuestion

/-! ### Progress persistence (App.tsx, loadProgress, lines 70-84) -/

/-- Outcome of reading and JSON-parsing the persisted value: the key can be
absent, the stored text can fail to parse (or not be an object), or parsing
yields an object whose four fields are each present or absent. -/
inductive PersistedRaw where
  | missing
  | corrupt
  | parsed (seen wrong correct : Option (String → Option Nat))
      (starred : Option (String → Option Bool))

/-- Load persisted progress (App.tsx, loadProgress): absent or unparseable
data falls back to the empty store, present fields are kept and absent
fields default to empty dictionaries. -/
def loadProgress : PersistedRaw → Progress
  | PersistedRaw.missing => emptyProgress
  | PersistedRaw.corrupt => emptyProgress
  | PersistedRaw.parsed s w c st =>
      { seen := s.getD (fun _ => none),
        wrong := w.getD (fun _ => none),
        correct := c.getD (fun _ => none),
        starred := st.getD (fun _ => none) }

/-! ### Sampler (App.tsx, the filtered memo, lines 105-129, and shuffle,
lines 51-58) -/

/-- Simultaneous swap of two positions, the destructuring assignment of the
shuffle loop body; both indices are in range at every call site. -/
def listSwap (a : List α) (i j : Nat) : List α :=
  match a[i]?, a[j]? with
  | some ai, some aj => (a.set i aj).set j ai
  | _, _ => a

/-- Fisher-Yates loop: index i runs from length - 1 down to 1, each step
swaps position i with position (draw mod (i + 1)). -/
def shuffleAux : List Nat → Nat → List α → List α
  | _, 0, a => a
  | [], _ + 1, a => a
  | r :: rs, i + 1, a => shuffleAux rs i (listSwap a (i + 1) (r % (i + 2)))

/-- Fisher-Yates shuffle (App.tsx, shuffle) with the randomness draws passed
explicitly. -/
def shuffle (rs : List Nat) (arr : List α) : List α :=
  shuffleAux rs (arr.length - 1) arr

/-- Type-filter step of the filtered memo (lines 108-110). -/
def typeFiltered (qs : List Question) : TypeFilter → List Question
  | TypeFilter.all => qs
  | TypeFilter.only t => qs.filter (fun q => decide (q.type = t))

/-- Wrong-only step of the filtered memo (lines 113-117): keep the questions
missed more often than answered correctly in the progress snapshot. -/
def wrongOnlyStep (m : Mode) (snapshot : Progress) (l : List Question) :
    List Question :=
  if m = Mode.wrongOnly then
    l.filter (fun q =>
      decide ((snapshot.wrong q.id).getD 0 > (snapshot.correct q.id).getD 0))
  else l

/-- Shuffle step of the filtered memo (lines 119-121). -/
def shuffleStep (b : Bool) (rs : List Nat) (l : List Question) :
    List Question :=
  if b then shuffle rs l else l

/-- Truncation step of the filtered memo (lines 123-125):
list.slice(0, Math.min(20, list.length)). -/
def truncateStep (m : Mode) (l : List Question) : List Question :=
  if m = Mode.random20 then l.take (min 20 l.length) else l

/-- The filtered working set (App.tsx, the filtered memo, lines 105-129). -/
def filtered (qs : List Question) (f : Filters) (snapshot : Progress)
    (rs : List Nat) : List Question :=
  truncateStep f.mode
    (shuffleStep f.shuffle rs
      (wrongOnlyStep f.mode snapshot (typeFiltered qs f.type)))

/-! ### Session state machine (App.tsx, lines 131-237) -/

/-- Per-question transient session state together with the progress store:
the selected option, the typed fill-in text, the revealed flag and the last
grade result. -/
structure SessionState where
  progress : Progress
  selected : Option Nat := none
  fillValue : String := ""
  revealed : Bool := false
  isCorrect : Option Bool := none

/-- Increment the seen counter of one question (App.tsx, markSeen). -/
def markSeen (qid : String) (p : Progress) : Progress :=
  { p with seen := setEntry p.seen qid ((p.seen qid).getD 0 + 1) }

/-- Increment the correct counter of one question (App.tsx, markCorrect). -/
def markCorrect (qid : String) (p : Progress) : Progress :=
  { p with correct := setEntry p.correct qid ((p.correct qid).getD 0 + 1) }

/-- Increment the wrong counter of one question (App.tsx, markWrong). -/
def markWrong (qid : String) (p : Progress) : Progress :=
  { p with wrong := setEntry p.wrong qid ((p.wrong qid).getD 0 + 1) }

/-- Flip the star flag of one question (App.tsx, toggleStar); a missing
entry reads as false. -/
def toggleStar (qid : String) (p : Progress) : Progress :=
  { p with starred := fun q =>
      if q = qid then some (!(p.starred qid).getD false) else p.starred q }

/-- Option-click handler (App.tsx, handleOptionClick, lines 196-212):
no-op when already revealed or no current question; otherwise records the
selection, marks the question seen, grades by strict equality of the clicked
index with correctIndex (false when correctIndex is absent, as a JavaScript
strict comparison with undefined is), updates the matching counter and
reveals. -/
def handleOptionClick (current : Option Question) (optIdx : Nat)
    (s : SessionState) : SessionState :=
  if s.revealed then s else
  match current with
  | none => s
  | some cur =>
    let p1 := markSeen cur.id s.progress
    let ok : Bool := match cur.correctIndex with
      | some ci => decide ((optIdx : Int) = ci)
      | none => false
    let p2 := if ok then markCorrect cur.id p1 else markWrong cur.id p1
    { s with selected := some optIdx, progress := p2,
             isCorrect := some ok, revealed := true }

/-- Fill-in-blank check handler (App.tsx, checkFill, lines 215-229): no-op
when there is no current question, the question is not fill-in-blank, or the
typed value is blank; otherwise marks seen, grades by equality of the
normalized input with the normalized expected answer (absent answer reads as
the empty string), updates the matching counter and reveals.  Note that this
handler itself does not test the revealed flag. -/
def checkFill (current : Option Question) (s : SessionState) : SessionState :=
  match current with
  | none => s
  | some cur =>
    if cur.type ≠ QType.fill_in_blank then s
    else if (trimList s.fillValue.data).isEmpty then s
    else
      let p1 := markSeen cur.id s.progress
      let ok : Bool :=
        decide (normalize s.fillValue = normalize (cur.correctAnswer.getD ""))
      let p2 := if ok then markCorrect cur.id p1 else markWrong cur.id p1
      { s with progress := p2, isCorrect := some ok, revealed := true }

/-- Advance to the next question (App.tsx, next, lines 231-233). -/
def next (idx total : Nat) : Nat :=
  if idx < total - 1 then idx + 1 else idx

/-- Retreat to the previous question (App.tsx, prev, lines 235-237). -/
def prev (idx : Nat) : Nat :=
  if 0 < idx then idx - 1 else idx

/-- Enter-key dispatch inside the fill-in input (App.tsx, the keydown
listener, lines 245-250): check the answer when not yet revealed, otherwise
advance. -/
def onEnterInInput (current : Option Question) (s : SessionState)
    (idx total : Nat) : SessionState × Nat :=
  if s.revealed then (s, next idx total) else (checkFill current s, idx)

/-! ### Helper lemmas on the progress dictionaries and the handlers -/

theorem setEntry_self (m : String → Option Nat) (k : String) (v : Nat) :
    setEntry m k v k = some v := by
  simp [setEntry]

theorem setEntry_other (m : String → Option Nat) (k : String) (v : Nat)
    (q : String) (h : q ≠ k) : setEntry m k v q = m q := by
  simp [setEntry, h]

theorem handleOptionClick_revealed (current : Option Question) (optIdx : Nat)
    (s : SessionState) (h : s.revealed = true) :
    handleOptionClick current optIdx s = s := by
  unfold handleOptionClick
  rw [h]
  simp

theorem handleOptionClick_progress (q : Question) (optIdx : Nat)
    (s : SessionState) (hrev : s.revealed = false) :
    (handleOptionClick (some q) optIdx s).progress =
      (if (match q.correctIndex with
           | some ci => decide ((optIdx : Int) = ci)
           | none => false)
       then markCorrect q.id (markSeen q.id s.progress)
       else markWrong q.id (markSeen q.id s.progress)) := by
  unfold handleOptionClick
  rw [hrev]
  simp

theorem checkFill_progress (q : Question) (s : SessionState)
    (hty : q.type = QType.fill_in_blank)
    (hne : (trimList s.fillValue.data).isEmpty = false) :
    (checkFill (some q) s).progress =
      (if decide (normalize s.fillValue = normalize (q.correctAnswer.getD ""))
       then markCorrect q.id (markSeen q.id s.progress)
       else markWrong q.id (markSeen q.id s.progress)) := by
  unfold checkFill
  simp [hty, hne]

theorem checkFill_skip (q : Question) (s : SessionState)
    (h : q.type ≠ QType.fill_in_blank ∨
         (trimList s.fillValue.data).isEmpty = true) :
    checkFill (some q) s = s := by
  unfold checkFill
  rcases h with h | h
  · simp [h]
  · by_cases hty : q.type = QType.fill_in_blank
    · simp [hty, h]
    · simp [hty]

theorem graded_progress_frame (b : Bool) (k : String) (p : Progress)
    (q' : String) (h : q' ≠ k) :
    ((if b then markCorrect k (markSeen k p)
      else markWrong k (markSeen k p)).seen q' = p.seen q')
    ∧ ((if b then markCorrect k (markSeen k p)
        else markWrong k (markSeen k p)).correct q' = p.correct q')
    ∧ ((if b then markCorrect k (markSeen k p)
        else markWrong k (markSeen k p)).wrong q' = p.wrong q')
    ∧ (∀ r, (if b then markCorrect k (markSeen k p)
             else markWrong k (markSeen k p)).starred r = p.starred r) := by
  cases b <;>
    simp [markSeen, markCorrect, markWrong, setEntry, h]

/-! ### Claim theorems -/

/-- Concrete fill-in-blank question used in counterexamples and witnesses. -/
def fillQ : Question :=
  { id := "1", type := QType.fill_in_blank, typeLabel := "Điền khuyết",
    prompt := "Thủ đô?", correctAnswer := some "x" }

/-- Concrete session state that is already revealed and still holds a
non-blank typed value. -/
def revealedState : SessionState :=
  { progress := emptyProgress, fillValue := "x", revealed := true }

/-- Claim C1, counterexample: in a revealed session state the fill-in check
handler, invoked again, increments the seen counter (the handler itself does
not test the revealed flag), so submission is not idempotent once revealed
as stated. -/
theorem resubmit_after_reveal_cex :
    revealedState.revealed = true
    ∧ revealedState.progress.seen "1" = none
    ∧ (checkFill (some fillQ) revealedState).progress.seen "1" = some 1 := by
  refine ⟨rfl, rfl, by decide⟩

/-- Claim C1, amended: once revealed, a repeated option click is a no-op on
the whole session state, and a repeated fill-in submission through the user
interface is also a no-op because every dispatch path tests the revealed
flag before invoking the check (the Enter-key dispatch shown here; the check
button is not rendered once revealed); only the bare fill-in check handler
lacks the guard. -/
theorem submit_noop_when_revealed (current : Option Question) (optIdx : Nat)
    (s : SessionState) (idx total : Nat) (h : s.revealed = true) :
    handleOptionClick current optIdx s = s
    ∧ (onEnterInInput current s idx total).1 = s := by
  refine ⟨handleOptionClick_revealed current optIdx s h, ?_⟩
  unfold onEnterInInput
  rw [h]
  simp

/-- Claim C1, witness for the amended theorem at a concrete revealed
state. -/
theorem submit_noop_when_revealed_witness :
    handleOptionClick (some fillQ) 0 revealedState = revealedState
    ∧ (onEnterInInput (some fillQ) revealedState 0 1).1 = revealedState :=
  submit_noop_when_revealed (some fillQ) 0 revealedState 0 1 rfl

/-- Claim C4: with the session not yet revealed, clicking an option marks
the question seen exactly once; when the clicked index equals correctIndex
the correct counter is incremented by one and the wrong dictionary is
untouched; and in every case exactly one of the correct or wrong counters is
incremented, the other dictionary staying untouched. -/
theorem option_submit_counts (q : Question) (ci : Int) (optIdx : Nat)
    (s : SessionState) (hrev : s.revealed = false)
    (hci : q.correctIndex = some ci) :
    ((handleOptionClick (some q) optIdx s).progress.seen q.id
        = some ((s.progress.seen q.id).getD 0 + 1))
    ∧ ((optIdx : Int) = ci →
        (handleOptionClick (some q) optIdx s).progress.correct q.id
            = some ((s.progress.correct q.id).getD 0 + 1)
        ∧ (handleOptionClick (some q) optIdx s).progress.wrong
            = s.progress.wrong)
    ∧ (((handleOptionClick (some q) optIdx s).progress.correct q.id
            = some ((s.progress.correct q.id).getD 0 + 1)
        ∧ (handleOptionClick (some q) optIdx s).progress.wrong
            = s.progress.wrong)
      ∨ ((handleOptionClick (some q) optIdx s).progress.wrong q.id
            = some ((s.progress.wrong q.id).getD 0 + 1)
        ∧ (handleOptionClick (some q) optIdx s).progress.correct
            = s.progress.correct)) := by
  have hp : (handleOptionClick (some q) optIdx s).progress =
      if decide ((optIdx : Int) = ci)
      then markCorrect q.id (markSeen q.id s.progress)
      else markWrong q.id (markSeen q.id s.progress) := by
    rw [handleOptionClick_progress q optIdx s hrev, hci]
  rw [hp]
  by_cases hok : (optIdx : Int) = ci
  · rw [if_pos (by simpa using hok)]
    refine ⟨?_, fun _ => ⟨?_, ?_⟩, Or.inl ⟨?_, ?_⟩⟩ <;>
      simp [markSeen, markCorrect, markWrong, setEntry]
  · rw [if_neg (by simpa using hok)]
    refine ⟨?_, fun hc => absurd hc hok, Or.inr ⟨?_, ?_⟩⟩ <;>
      simp [markSeen, markCorrect, markWrong, setEntry]

/-- Concrete two-option question used in witnesses. -/
def choiceQ : Question :=
  { id := "7", type := QType.true_false, typeLabel := "Đúng/Sai",
    prompt := "?", options := some ["Đúng", "Sai"], correctIndex := some 0 }

/-- Concrete fresh session state over the empty store. -/
def freshState : SessionState := { progress := emptyProgress }

/-- Claim C4, witness: clicking the correct option of the concrete question
on a fresh state yields seen = 1, correct = 1 and an untouched wrong
dictionary. -/
theorem option_submit_counts_witness :
    ((handleOptionClick (some choiceQ) 0 freshState).progress.seen "7"
        = some 1)
    ∧ ((handleOptionClick (some choiceQ) 0 freshState).progress.correct "7"
        = some 1)
    ∧ ((handleOptionClick (some choiceQ) 0 freshState).progress.wrong
        = freshState.progress.wrong) := by
  have h := option_submit_counts choiceQ 0 0 freshState rfl rfl
  exact ⟨h.1.trans (by decide), ((h.2.1 rfl).1).trans (by decide),
    (h.2.1 rfl).2⟩

/-- Claim C8: advancing at the last position and retreating at position
zero leave the position unchanged, and both navigation actions preserve the
bound position < total for a non-empty working set. -/
theorem nav_bounds (total idx : Nat) (htot : 1 ≤ total)
    (hidx : idx < total) :
    next (total - 1) total = total - 1
    ∧ prev 0 = 0
    ∧ next idx total < total
    ∧ prev idx < total := by
  unfold next prev
  refine ⟨?_, rfl, ?_, ?_⟩ <;> split <;> omega

/-- Claim C8, witness at a three-element working set. -/
theorem nav_bounds_witness :
    next 2 3 = 2 ∧ prev 0 = 0 ∧ next 1 3 < 3 ∧ prev 1 < 3 := by
  have h := nav_bounds 3 1 (by decide) (by decide)
  exact ⟨h.1, h.2.1, h.2.2.1, h.2.2.2⟩

/-- Claim C9: loading persisted progress is a total function of the
persisted input; a missing key, unparseable data, and a parsed object with
all four fields absent each yield the empty store, and present fields are
kept as read. -/
theorem loadProgress_fallback :
    loadProgress PersistedRaw.missing = emptyProgress
    ∧ loadProgress PersistedRaw.corrupt = emptyProgress
    ∧ loadProgress (PersistedRaw.parsed none none none none) = emptyProgress
    ∧ ∀ a b c d,
        loadProgress (PersistedRaw.parsed (some a) (some b) (some c) (some d))
          = { seen := a, wrong := b, correct := c, starred := d } :=
  ⟨rfl, rfl, rfl, fun _ _ _ _ => rfl⟩

/-- Claim C10: grading is framed to the current question: both grading
handlers leave the seen, correct and wrong entries of every other question
id unchanged, and leave the starred dictionary entirely unchanged. -/
theorem grading_frame (q : Question) (optIdx : Nat) (s : SessionState)
    (q' : String) (hne : q' ≠ q.id) :
    ((handleOptionClick (some q) optIdx s).progress.seen q'
        = s.progress.seen q'
      ∧ (handleOptionClick (some q) optIdx s).progress.correct q'
        = s.progress.correct q'
      ∧ (handleOptionClick (some q) optIdx s).progress.wrong q'
        = s.progress.wrong q')
    ∧ (∀ r, (handleOptionClick (some q) optIdx s).progress.starred r
        = s.progress.starred r)
    ∧ ((checkFill (some q) s).progress.seen q' = s.progress.seen q'
      ∧ (checkFill (some q) s).progress.correct q' = s.progress.correct q'
      ∧ (checkFill (some q) s).progress.wrong q' = s.progress.wrong q')
    ∧ (∀ r, (checkFill (some q) s).progress.starred r
        = s.progress.starred r) := by
  have hopt : (handleOptionClick (some q) optIdx s).progress.seen q'
        = s.progress.seen q'
      ∧ (handleOptionClick (some q) optIdx s).progress.correct q'
        = s.progress.correct q'
      ∧ (handleOptionClick (some q) optIdx s).progress.wrong q'
        = s.progress.wrong q'
      ∧ ∀ r, (handleOptionClick (some q) optIdx s).progress.starred r
        = s.progress.starred r := by
    by_cases hrev : s.revealed
    · rw [handleOptionClick_revealed (some q) optIdx s hrev]
      exact ⟨rfl, rfl, rfl, fun _ => rfl⟩
    · rw [handleOptionClick_progress q optIdx s (by simpa using hrev)]
      exact graded_progress_frame _ q.id s.progress q' hne
  have hfill : (checkFill (some q) s).progress.seen q' = s.progress.seen q'
      ∧ (checkFill (some q) s).progress.correct q' = s.progress.correct q'
      ∧ (checkFill (some q) s).progress.wrong q' = s.progress.wrong q'
      ∧ ∀ r, (checkFill (some q) s).progress.starred r
        = s.progress.starred r := by
    by_cases hty : q.type = QType.fill_in_blank
    · by_cases hbl : (trimList s.fillValue.data).isEmpty
      · rw [checkFill_skip q s (Or.inr hbl)]
        exact ⟨rfl, rfl, rfl, fun _ => rfl⟩
      · rw [checkFill_progress q s hty (by simpa using hbl)]
        exact graded_progress_frame _ q.id s.progress q' hne
    · rw [checkFill_skip q s (Or.inl hty)]
      exact ⟨rfl, rfl, rfl, fun _ => rfl⟩
  exact ⟨⟨hopt.1, hopt.2.1, hopt.2.2.1⟩, hopt.2.2.2,
    ⟨hfill.1, hfill.2.1, hfill.2.2.1⟩, hfill.2.2.2⟩

/-- Claim C10, witness: grading the concrete choice question does not touch
the entries of a different question id nor the star dictionary. -/
theorem grading_frame_witness :
    ((handleOptionClick (some choiceQ) 0 freshState).progress.seen "other"
        = freshState.progress.seen "other"
      ∧ (handleOptionClick (some choiceQ) 0 freshState).progress.correct
          "other" = freshState.progress.correct "other"
      ∧ (handleOptionClick (some choiceQ) 0 freshState).progress.wrong
          "other" = freshState.progress.wrong "other")
    ∧ (∀ r, (handleOptionClick (some choiceQ) 0 freshState).progress.starred
        r = freshState.progress.starred r)
    ∧ ((checkFill (some choiceQ) freshState).progress.seen "other"
        = freshState.progress.seen "other"
      ∧ (checkFill (some choiceQ) freshState).progress.correct "other"
        = freshState.progress.correct "other"
      ∧ (checkFill (some choiceQ) freshState).progress.wrong "other"
        = freshState.progress.wrong "other")
    ∧ (∀ r, (checkFill (some choiceQ) freshState).progress.starred r
        = freshState.progress.starred r) :=
  grading_frame choiceQ 0 freshState "other" (by decide)

/-! ### Loader: characterization of findIndex -/

theorem jsFindIndexFrom_none (p : α → Bool) :
    ∀ (l : List α) (i : Nat), (∀ o ∈ l, p o = false) →
      jsFindIndexFrom p l i = -1
  | [], _, _ => rfl
  | a :: as, i, h => by
    have ha : p a = false := h a (List.mem_cons_self a as)
    have := jsFindIndexFrom_none p as (i + 1)
      (fun o ho => h o (List.mem_cons_of_mem a ho))
    simp [jsFindIndexFrom, ha, this]

theorem jsFindIndexFrom_found (p : α → Bool) :
    ∀ (l : List α) (i : Nat), (∃ o ∈ l, p o = true) →
      ∃ k : Nat, jsFindIndexFrom p l i = ((i + k : Nat) : Int)
        ∧ k < l.length
        ∧ (∃ o, l[k]? = some o ∧ p o = true)
        ∧ ∀ j, j < k → ∀ o, l[j]? = some o → p o = false := by
  intro l
  induction l with
  | nil => rintro i ⟨o, ho, _⟩; cases ho
  | cons a as ih =>
    rintro i ⟨o, ho, hpo⟩
    by_cases hpa : p a = true
    · refine ⟨0, ?_, by simp, ⟨a, by simp, hpa⟩, fun j hj => by omega⟩
      simp [jsFindIndexFrom, hpa]
    · have hoas : o ∈ as := by
        rcases List.mem_cons.mp ho with h | h
        · exact absurd (h ▸ hpo) hpa
        · exact h
      obtain ⟨k', hv, hk', hat, hbefore⟩ := ih (i + 1) ⟨o, hoas, hpo⟩
      refine ⟨k' + 1, ?_, by simpa using Nat.succ_lt_succ hk',
        by simpa using hat, ?_⟩
      · have : ((i + 1) + k' : Nat) = (i + (k' + 1) : Nat) := by omega
        simp [jsFindIndexFrom, hpa, hv, this]
      · intro j hj o' ho'
        match j with
        | 0 =>
          have ha' : a = o' := by simpa using ho'
          simpa [← ha'] using hpa
        | j' + 1 =>
          exact hbefore j' (by omega) o' (by simpa using ho')

/-- Raw choice question with no option flagged correct. -/
def rawNoCorrect : RawQuestion :=
  { id := 9, type := QType.true_false, type_description := "Đúng/Sai",
    question := "?",
    options := some [⟨"a", "Đúng", false⟩, ⟨"b", "Sai", false⟩] }

/-- Claim C2, counterexample: on a choice entry with zero options flagged
correct the loader silently produces correctIndex = -1, which is outside
the range 0 <= correctIndex < 2 of its two options. -/
theorem loader_out_of_range_cex :
    (processQuestions [rawNoCorrect]).map Question.correctIndex = [some (-1)]
    ∧ (processQuestions [rawNoCorrect]).map
        (fun q => (q.options.getD []).length) = [2]
    ∧ ¬ (0 ≤ (-1 : Int)) := by decide

/-- Claim C2, amended: for a choice entry whose options carry at least one
correct flag, the loader deterministically surfaces the first flagged index,
which lies inside 0 <= correctIndex < len(options); but for an entry with
zero flagged options it neither fails nor stays in range: it silently
produces the sentinel correctIndex = -1. -/
theorem loader_choice_correctIndex (rq : RawQuestion) (opts : List RawOption)
    (hty : rq.type ≠ QType.fill_in_blank) (ho : rq.options = some opts) :
    (processQuestion rq).options = some (opts.map RawOption.text)
    ∧ ((∀ o ∈ opts, o.is_correct = false) →
        (processQuestion rq).correctIndex = some (-1))
    ∧ ((∃ o ∈ opts, o.is_correct = true) →
        ∃ k : Nat, (processQuestion rq).correctIndex = some ((k : Nat) : Int)
          ∧ k < opts.length
          ∧ (∃ o, opts[k]? = some o ∧ o.is_correct = true)
          ∧ ∀ j, j < k → ∀ o, opts[j]? = some o → o.is_correct = false) := by
  have hq : processQuestion rq =
      { id := toString rq.id, type := rq.type,
        typeLabel := rq.type_description, prompt := rq.question,
        explanation := rq.explanation,
        options := some (opts.map RawOption.text),
        correctIndex := some (jsFindIndex RawOption.is_correct opts) } := by
    unfold processQuestion
    simp [hty, ho]
  refine ⟨by rw [hq], fun hnone => ?_, fun hsome => ?_⟩
  · rw [hq]
    simpa [jsFindIndex] using jsFindIndexFrom_none _ opts 0 hnone
  · obtain ⟨k, hv, hk, hat, hbefore⟩ :=
      jsFindIndexFrom_found RawOption.is_correct opts 0 hsome
    refine ⟨k, ?_, hk, hat, hbefore⟩
    rw [hq]
    simpa [jsFindIndex] using hv

/-- Raw choice question with several options flagged correct; index 1 is
the first flagged one. -/
def rawMulti : RawQuestion :=
  { id := 3, type := QType.multiple_choice_one_correct,
    type_description := "d", question := "q",
    options := some [⟨"a", "x", false⟩, ⟨"b", "y", true⟩, ⟨"c", "z", true⟩] }

/-- Claim C2, witness: on the multi-flagged concrete entry the loader
surfaces the first flagged index, 1, in range. -/
theorem loader_choice_correctIndex_witness :
    ((processQuestion rawMulti).options
        = some ([⟨"a", "x", false⟩, ⟨"b", "y", true⟩,
                 ⟨"c", "z", true⟩].map RawOption.text)
      ∧ ((∀ o ∈ ([⟨"a", "x", false⟩, ⟨"b", "y", true⟩,
                  ⟨"c", "z", true⟩] : List RawOption), o.is_correct = false) →
          (processQuestion rawMulti).correctIndex = some (-1))
      ∧ ((∃ o ∈ ([⟨"a", "x", false⟩, ⟨"b", "y", true⟩,
                  ⟨"c", "z", true⟩] : List RawOption), o.is_correct = true) →
          ∃ k : Nat,
            (processQuestion rawMulti).correctIndex = some ((k : Nat) : Int)
            ∧ k < ([⟨"a", "x", false⟩, ⟨"b", "y", true⟩,
                    ⟨"c", "z", true⟩] : List RawOption).length
            ∧ (∃ o, ([⟨"a", "x", false⟩, ⟨"b", "y", true⟩,
                      ⟨"c", "z", true⟩] : List RawOption)[k]? = some o
                ∧ o.is_correct = true)
            ∧ ∀ j, j < k → ∀ o,
                ([⟨"a", "x", false⟩, ⟨"b", "y", true⟩,
                  ⟨"c", "z", true⟩] : List RawOption)[j]? = some o →
                o.is_correct = false))
    ∧ (processQuestion rawMulti).correctIndex = some 1 :=
  ⟨loader_choice_correctIndex rawMulti
      [⟨"a", "x", false⟩, ⟨"b", "y", true⟩, ⟨"c", "z", true⟩]
      (by decide) rfl,
   by decide⟩

/-- Concrete fill-in question whose expected answer carries diacritics. -/
def qHanoi : Question :=
  { id := "2", type := QType.fill_in_blank, typeLabel := "Điền khuyết",
    prompt := "Thủ đô?", correctAnswer := some "Hà Nội" }

/-- Concrete session state typing the plain-ASCII form of the answer. -/
def sHanoi : SessionState :=
  { progress := emptyProgress, fillValue := "ha noi" }

/-- Claim C6: a valid fill-in submission is graded correct exactly when the
normalized input equals the normalized expected answer, and concretely both
the string with Vietnamese diacritics and extra blanks and its plain form
normalize to the same text. -/
theorem fill_grading (q : Question) (s : SessionState)
    (hty : q.type = QType.fill_in_blank)
    (hbl : (trimList s.fillValue.data).isEmpty = false) :
    ((checkFill (some q) s).isCorrect = some true ↔
      normalize s.fillValue = normalize (q.correctAnswer.getD ""))
    ∧ normalize "Hà Nội  " = "ha noi"
    ∧ normalize "ha noi" = "ha noi" := by
  refine ⟨?_, by decide, by decide⟩
  unfold checkFill
  simp [hty, hbl]

/-- Claim C6, witness: typing the plain form against the diacritic answer is
graded correct. -/
theorem fill_grading_witness :
    (((checkFill (some qHanoi) sHanoi).isCorrect = some true ↔
        normalize sHanoi.fillValue = normalize (qHanoi.correctAnswer.getD ""))
      ∧ normalize "Hà Nội  " = "ha noi"
      ∧ normalize "ha noi" = "ha noi")
    ∧ (checkFill (some qHanoi) sHanoi).isCorrect = some true :=
  ⟨fill_grading qHanoi sHanoi rfl (by decide), by decide⟩

/-! ### Sampler: the Fisher-Yates loop is a permutation -/

theorem cons_set_perm : ∀ (t : List α) (k : Nat) (tk b : α),
    t[k]? = some tk → List.Perm (tk :: t.set k b) (b :: t)
  | [], k, _, _, h => by simp at h
  | y :: t', 0, tk, b, h => by
    have hy : y = tk := by simpa using h
    subst hy
    show List.Perm (y :: b :: t') (b :: y :: t')
    exact List.Perm.swap b y t'
  | y :: t', k + 1, tk, b, h => by
    have h' : t'[k]? = some tk := by simpa using h
    have ih := cons_set_perm t' k tk b h'
    show List.Perm (tk :: y :: t'.set k b) (b :: y :: t')
    exact (List.Perm.swap y tk _).trans ((ih.cons y).trans
      (List.Perm.swap b y t'))

theorem set_set_perm : ∀ (a : List α) (i j : Nat) (ai aj : α),
    a[i]? = some ai → a[j]? = some aj →
    List.Perm ((a.set i aj).set j ai) a
  | [], _, _, _, _, hi, _ => by simp at hi
  | x :: t, 0, 0, ai, aj, hi, hj => by
    have hai : x = ai := by simpa using hi
    have haj : x = aj := by simpa using hj
    subst hai
    rw [← haj]
    show List.Perm (((x :: t).set 0 x).set 0 x) (x :: t)
    simp
  | x :: t, 0, k + 1, ai, aj, hi, hj => by
    have hai : x = ai := by simpa using hi
    have hj' : t[k]? = some aj := by simpa using hj
    subst hai
    show List.Perm (aj :: t.set k x) (x :: t)
    exact cons_set_perm t k aj x hj'
  | x :: t, m + 1, 0, ai, aj, hi, hj => by
    have haj : x = aj := by simpa using hj
    have hi' : t[m]? = some ai := by simpa using hi
    subst haj
    show List.Perm (ai :: t.set m x) (x :: t)
    exact cons_set_perm t m ai x hi'
  | x :: t, m + 1, k + 1, ai, aj, hi, hj => by
    have hi' : t[m]? = some ai := by simpa using hi
    have hj' : t[k]? = some aj := by simpa using hj
    show List.Perm (x :: (t.set m aj).set k ai) (x :: t)
    exact (set_set_perm t m k ai aj hi' hj').cons x

theorem listSwap_perm (a : List α) (i j : Nat) :
    List.Perm (listSwap a i j) a := by
  unfold listSwap
  split
  next ai aj hai haj => exact set_set_perm a i j ai aj hai haj
  next => exact List.Perm.refl a

theorem shuffleAux_perm (rs : List Nat) :
    ∀ (i : Nat) (a : List α), List.Perm (shuffleAux rs i a) a := by
  induction rs with
  | nil => intro i a; cases i <;> exact List.Perm.refl a
  | cons r rs ih =>
    intro i a
    cases i with
    | zero => exact List.Perm.refl a
    | succ n => exact (ih n _).trans (listSwap_perm a (n + 1) (r % (n + 2)))

theorem shuffle_perm (rs : List Nat) (arr : List α) :
    List.Perm (shuffle rs arr) arr :=
  shuffleAux_perm rs (arr.length - 1) arr

/-! ### Sampler: step lemmas -/

/-- Whether a question passes the type filter. -/
def typeMatches : TypeFilter → Question → Bool
  | TypeFilter.all, _ => true
  | TypeFilter.only t, q => decide (q.type = t)

theorem mem_typeFiltered (qs : List Question) (tf : TypeFilter)
    (q : Question) :
    q ∈ typeFiltered qs tf ↔ q ∈ qs ∧ typeMatches tf q = true := by
  cases tf with
  | all => simp [typeFiltered, typeMatches]
  | only t => simp [typeFiltered, typeMatches, List.mem_filter]

theorem typeFiltered_nodup (qs : List Question) (tf : TypeFilter)
    (hnd : qs.Nodup) : (typeFiltered qs tf).Nodup := by
  cases tf with
  | all => exact hnd
  | only t => exact hnd.filter _

theorem wrongOnlyStep_other (m : Mode) (hm : m ≠ Mode.wrongOnly)
    (snapshot : Progress) (l : List Question) :
    wrongOnlyStep m snapshot l = l := if_neg hm

theorem truncateStep_random20 (l : List Question) :
    truncateStep Mode.random20 l = l.take (min 20 l.length) := if_pos rfl

theorem truncateStep_other (m : Mode) (hm : m ≠ Mode.random20)
    (l : List Question) : truncateStep m l = l := if_neg hm

theorem shuffleStep_perm (b : Bool) (rs : List Nat) (l : List Question) :
    List.Perm (shuffleStep b rs l) l := by
  unfold shuffleStep
  split
  · exact shuffle_perm rs l
  · exact List.Perm.refl l

/-- Claim C3: in wrong-only mode the working set contains exactly the
type-matching bank questions whose wrong counter strictly exceeds their
correct counter in the progress snapshot (absent entries reading as
zero). -/
theorem wrongOnly_working_set (qs : List Question) (f : Filters)
    (p : Progress) (rs : List Nat) (q : Question)
    (hm : f.mode = Mode.wrongOnly) :
    q ∈ filtered qs f p rs ↔
      q ∈ qs ∧ typeMatches f.type q = true
        ∧ (p.correct q.id).getD 0 < (p.wrong q.id).getD 0 := by
  unfold filtered
  rw [hm, truncateStep_other Mode.wrongOnly (by decide) _,
    (shuffleStep_perm f.shuffle rs _).mem_iff]
  unfold wrongOnlyStep
  rw [if_pos rfl, List.mem_filter, mem_typeFiltered]
  simp [and_assoc]

/-- Concrete questions, store and filter for the wrong-only witness. -/
def qWrongA : Question :=
  { id := "a", type := QType.true_false, typeLabel := "", prompt := "" }

def qWrongB : Question :=
  { id := "b", type := QType.true_false, typeLabel := "", prompt := "" }

def pWrong : Progress :=
  { seen := fun _ => none,
    wrong := fun k => if k = "a" then some 2 else none,
    correct := fun k => if k = "a" then some 1 else none,
    starred := fun _ => none }

def fWrong : Filters :=
  { type := TypeFilter.all, mode := Mode.wrongOnly, shuffle := false }

/-- Claim C3, witness: with wrong = 2 and correct = 1 the question is
retained; the untouched question (0 vs 0) is excluded. -/
theorem wrongOnly_working_set_witness :
    qWrongA ∈ filtered [qWrongA, qWrongB] fWrong pWrong []
    ∧ qWrongB ∉ filtered [qWrongA, qWrongB] fWrong pWrong [] := by
  constructor
  · exact (wrongOnly_working_set [qWrongA, qWrongB] fWrong pWrong []
      qWrongA rfl).mpr ⟨by decide, by decide, by decide⟩
  · intro hmem
    have h := (wrongOnly_working_set [qWrongA, qWrongB] fWrong pWrong []
      qWrongB rfl).mp hmem
    exact absurd h.2.2 (by decide)

/-- Claim C7: in random-20 mode the sampler returns exactly
min(20, length of the type-filtered list) questions, and on a bank of
pairwise-distinct questions they are pairwise distinct. -/
theorem random20_size (qs : List Question) (f : Filters) (p : Progress)
    (rs : List Nat) (hm : f.mode = Mode.random20) (hnd : qs.Nodup) :
    (filtered qs f p rs).length = min 20 (typeFiltered qs f.type).length
    ∧ (filtered qs f p rs).Nodup := by
  unfold filtered
  rw [hm, wrongOnlyStep_other Mode.random20 (by decide) _ _,
    truncateStep_random20]
  have hperm := shuffleStep_perm f.shuffle rs (typeFiltered qs f.type)
  constructor
  · rw [List.length_take, hperm.length_eq]
    omega
  · exact List.Nodup.sublist (List.take_sublist _ _)
      (hperm.nodup_iff.mpr (typeFiltered_nodup qs f.type hnd))

/-- Concrete question maker and banks for the random-20 witness. -/
def mkQW (n : Nat) : Question :=
  { id := toString n, type := QType.true_false, typeLabel := "",
    prompt := "" }

def bank50 : List Question := (List.range 50).map mkQW

def bank5 : List Question := (List.range 5).map mkQW

def fRand : Filters :=
  { type := TypeFilter.all, mode := Mode.random20, shuffle := true }

/-- Claim C7, witness: a shuffled bank of 50 distinct questions yields
exactly 20 distinct ones; a bank of 5 yields exactly 5. -/
theorem random20_size_witness :
    (filtered bank50 fRand emptyProgress [7, 3, 11]).length = 20
    ∧ (filtered bank50 fRand emptyProgress [7, 3, 11]).Nodup
    ∧ (filtered bank5 fRand emptyProgress [2]).length = 5
    ∧ (filtered bank5 fRand emptyProgress [2]).Nodup := by
  have h50 := random20_size bank50 fRand emptyProgress [7, 3, 11] rfl
    (by decide)
  have h5 := random20_size bank5 fRand emptyProgress [2] rfl (by decide)
  exact ⟨h50.1.trans (by decide), h50.2, h5.1.trans (by decide), h5.2⟩

/-! ### Normalizer: idempotence

The output of the pipeline contains only lowercase ASCII letters, digits
and single interior spaces, with no leading or trailing space; every stage
of the pipeline fixes such strings, so running the pipeline twice equals
running it once. -/

/-- Every character is a kept (lowercase alphanumeric) character or a
plain space. -/
def goodList (l : List Char) : Prop := ∀ c ∈ l, isKeepB c = true ∨ c = ' '

/-- Any whitespace character occurring in the list is a plain space. -/
def allWsSpace (l : List Char) : Prop := ∀ c ∈ l, isWsB c = true → c = ' '

/-- Adjacent characters are never both whitespace. -/
def NA (a b : Char) : Prop := isWsB a = false ∨ isWsB b = false

/-- No two adjacent whitespace characters anywhere in the list. -/
def noAdj (l : List Char) : Prop := List.Chain' NA l

/-- The first character, when present, is not whitespace. -/
def headOk (l : List Char) : Prop := ∀ h ∈ l.head?, isWsB h = false

/-- The last character, when present, is not whitespace. -/
def lastOk (l : List Char) : Prop := ∀ h ∈ l.getLast?, isWsB h = false

theorem keep_not_ws (c : Char) (h : isKeepB c = true) : isWsB c = false := by
  simp [isKeepB, isLowerB, isDigitB] at h
  simp [isWsB]
  omega

theorem toLowerChar_id (c : Char) (h : isKeepB c = true ∨ c = ' ') :
    toLowerChar c = c := by
  rcases h with h | rfl
  · simp [isKeepB, isLowerB, isDigitB] at h
    unfold toLowerChar
    rw [if_neg (by omega)]
  · decide

theorem nfdChar_id (c : Char) (h : isKeepB c = true ∨ c = ' ') :
    nfdChar c = [c] := by
  rcases h with h | rfl
  · simp [isKeepB, isLowerB, isDigitB] at h
    unfold nfdChar
    rw [if_pos (by omega)]
  · decide

theorem notCombining (c : Char) (h : isKeepB c = true ∨ c = ' ') :
    (!isCombiningB c) = true := by
  rcases h with h | rfl
  · simp [isKeepB, isLowerB, isDigitB] at h
    simp [isCombiningB]
    omega
  · decide

theorem keepOrSpace_id (c : Char) (h : isKeepB c = true ∨ c = ' ') :
    keepOrSpace c = c := by
  rcases h with h | rfl
  · unfold keepOrSpace
    rw [if_pos (by simp [h])]
  · decide

theorem mem_map_keepOrSpace (l : List Char) (c : Char)
    (h : c ∈ l.map keepOrSpace) : isKeepB c = true ∨ isWsB c = true := by
  rcases List.mem_map.mp h with ⟨d, _, rfl⟩
  unfold keepOrSpace
  split
  next hcond => simpa using hcond
  next => right; decide

theorem mem_collapseAux :
    ∀ (l : List Char) (b : Bool) (c : Char), c ∈ collapseAux b l →
      c = ' ' ∨ (isWsB c = false ∧ c ∈ l)
  | [], _, _, h => by simp [collapseAux] at h
  | c' :: cs, b, c, h => by
    by_cases hws : isWsB c'
    · rcases b with _ | _
      · rw [show collapseAux false (c' :: cs)
            = ' ' :: collapseAux true cs by simp [collapseAux, hws]] at h
        rcases List.mem_cons.mp h with rfl | h
        · exact Or.inl rfl
        · rcases mem_collapseAux cs true c h with h | ⟨hc, hmem⟩
          · exact Or.inl h
          · exact Or.inr ⟨hc, List.mem_cons_of_mem c' hmem⟩
      · rw [show collapseAux true (c' :: cs)
            = collapseAux true cs by simp [collapseAux, hws]] at h
        rcases mem_collapseAux cs true c h with h | ⟨hc, hmem⟩
        · exact Or.inl h
        · exact Or.inr ⟨hc, List.mem_cons_of_mem c' hmem⟩
    · rw [show collapseAux b (c' :: cs)
          = c' :: collapseAux false cs by simp [collapseAux, hws]] at h
      rcases List.mem_cons.mp h with rfl | h
      · exact Or.inr ⟨by simpa using hws, List.mem_cons_self c cs⟩
      · rcases mem_collapseAux cs false c h with h | ⟨hc, hmem⟩
        · exact Or.inl h
        · exact Or.inr ⟨hc, List.mem_cons_of_mem c' hmem⟩

theorem collapseAux_chain :
    ∀ l : List Char, noAdj (collapseAux false l) ∧ noAdj (collapseAux true l)
      ∧ headOk (collapseAux true l)
  | [] => by
    refine ⟨List.chain'_nil, List.chain'_nil, ?_⟩
    intro h hmem
    simp [collapseAux] at hmem
  | c :: cs => by
    obtain ⟨ihf, iht, ihh⟩ := collapseAux_chain cs
    by_cases hws : isWsB c
    · have e1 : collapseAux false (c :: cs) = ' ' :: collapseAux true cs := by
        simp [collapseAux, hws]
      have e2 : collapseAux true (c :: cs) = collapseAux true cs := by
        simp [collapseAux, hws]
      refine ⟨?_, ?_, ?_⟩
      · rw [e1]
        exact List.chain'_cons'.mpr ⟨fun y hy => Or.inr (ihh y hy), iht⟩
      · rw [e2]; exact iht
      · rw [e2]; exact ihh
    · have e1 : collapseAux false (c :: cs) = c :: collapseAux false cs := by
        simp [collapseAux, hws]
      have e2 : collapseAux true (c :: cs) = c :: collapseAux false cs := by
        simp [collapseAux, hws]
      have hchain : noAdj (c :: collapseAux false cs) :=
        List.chain'_cons'.mpr ⟨fun _ _ => Or.inl (by simpa using hws), ihf⟩
      refine ⟨?_, ?_, ?_⟩
      · rw [e1]; exact hchain
      · rw [e2]; exact hchain
      · rw [e2]
        intro h hmem
        simp only [List.head?_cons, Option.mem_def, Option.some_inj] at hmem
        subst hmem
        simpa using hws

theorem collapseAux_fix :
    ∀ l : List Char, allWsSpace l → noAdj l →
      collapseAux false l = l ∧ (headOk l → collapseAux true l = l)
  | [] => fun _ _ => ⟨rfl, fun _ => rfl⟩
  | c :: cs => by
    intro hall hadj
    have hall' : allWsSpace cs := fun d hd => hall d (List.mem_cons_of_mem c hd)
    have hadj' : noAdj cs := (List.chain'_cons'.mp hadj).2
    obtain ⟨ihf, iht⟩ := collapseAux_fix cs hall' hadj'
    by_cases hws : isWsB c
    · have hc : c = ' ' := hall c (List.mem_cons_self c cs) hws
      have hhead : headOk cs := by
        intro y hy
        rcases (List.chain'_cons'.mp hadj).1 y hy with h | h
        · exact absurd hws (by simp [h])
        · exact h
      constructor
      · rw [show collapseAux false (c :: cs)
            = ' ' :: collapseAux true cs by simp [collapseAux, hws]]
        rw [iht hhead, hc]
      · intro hh
        exact absurd (hh c (by simp)) (by simp [hws])
    · have e : ∀ b, collapseAux b (c :: cs) = c :: collapseAux false cs := by
        intro b; simp [collapseAux, hws]
      exact ⟨by rw [e false, ihf], fun _ => by rw [e true, ihf]⟩

theorem headOk_dropWhile (l : List Char) : headOk (l.dropWhile isWsB) := by
  induction l with
  | nil => intro h hmem; simp at hmem
  | cons c cs ih =>
    by_cases hws : isWsB c
    · rw [List.dropWhile_cons_of_pos hws]; exact ih
    · rw [List.dropWhile_cons_of_neg hws]
      intro y hy
      simp only [List.head?_cons, Option.mem_def, Option.some_inj] at hy
      subst hy
      simpa using hws

theorem dropWhile_eq_self_of_headOk (l : List Char) (h : headOk l) :
    l.dropWhile isWsB = l := by
  cases l with
  | nil => rfl
  | cons c cs =>
    exact List.dropWhile_cons_of_neg (by simpa using h c (by simp))

theorem getLast?_dropWhile (l : List Char) :
    l.dropWhile isWsB = [] ∨
      (l.dropWhile isWsB).getLast? = l.getLast? := by
  induction l with
  | nil => exact Or.inl rfl
  | cons c cs ih =>
    by_cases hws : isWsB c
    · rw [List.dropWhile_cons_of_pos hws]
      by_cases hdw : List.dropWhile isWsB cs = []
      · exact Or.inl hdw
      · right
        rcases ih with h | h
        · exact absurd h hdw
        · rw [h]
          cases cs with
          | nil => exact absurd rfl hdw
          | cons x xs => simp [List.getLast?_cons_cons]
    · rw [List.dropWhile_cons_of_neg hws]
      exact Or.inr rfl

theorem chain'_dropWhile (R : Char → Char → Prop) (p : Char → Bool)
    (l : List Char) (h : List.Chain' R l) :
    List.Chain' R (l.dropWhile p) := by
  induction l with
  | nil => exact h
  | cons c cs ih =>
    by_cases hp : p c
    · rw [List.dropWhile_cons_of_pos hp]
      exact ih (List.chain'_cons'.mp h).2
    · rw [List.dropWhile_cons_of_neg hp]
      exact h

theorem noAdj_reverse (l : List Char) (h : noAdj l) : noAdj l.reverse := by
  unfold noAdj at *
  rw [List.chain'_reverse]
  exact h.imp (fun _ _ hab => Or.symm hab)

theorem headOk_trimList (l : List Char) : headOk (trimList l) := by
  unfold trimList
  set p := l.dropWhile isWsB with hp
  set x := p.reverse.dropWhile isWsB with hx
  intro y hy
  rw [List.head?_reverse] at hy
  rcases getLast?_dropWhile p.reverse with h | h
  · rw [← hx] at h
    rw [h] at hy
    simp at hy
  · rw [← hx] at h
    rw [h, List.getLast?_reverse] at hy
    exact headOk_dropWhile l y hy

theorem lastOk_trimList (l : List Char) : lastOk (trimList l) := by
  unfold trimList
  intro y hy
  rw [List.getLast?_reverse] at hy
  exact headOk_dropWhile _ y hy

theorem noAdj_trimList (l : List Char) (h : noAdj l) : noAdj (trimList l) := by
  unfold trimList
  exact noAdj_reverse _ (chain'_dropWhile _ _ _
    (noAdj_reverse _ (chain'_dropWhile _ _ _ h)))

theorem trimList_eq_self (l : List Char) (hh : headOk l) (hl : lastOk l) :
    trimList l = l := by
  unfold trimList
  rw [dropWhile_eq_self_of_headOk l hh]
  have hrev : headOk l.reverse := by
    intro y hy
    rw [List.head?_reverse] at hy
    exact hl y hy
  rw [dropWhile_eq_self_of_headOk l.reverse hrev, List.reverse_reverse]

theorem mem_trimList (l : List Char) (c : Char) (h : c ∈ trimList l) :
    c ∈ l := by
  unfold trimList at h
  rw [List.mem_reverse] at h
  have h1 := (List.dropWhile_sublist isWsB).subset h
  rw [List.mem_reverse] at h1
  exact (List.dropWhile_sublist isWsB).subset h1

theorem map_id_on (f : Char → Char) :
    ∀ l : List Char, (∀ c ∈ l, f c = c) → l.map f = l
  | [], _ => rfl
  | c :: cs, h => by
    rw [List.map_cons, h c (by simp),
      map_id_on f cs (fun d hd => h d (List.mem_cons_of_mem c hd))]

theorem flatten_map_id (f : Char → List Char) :
    ∀ l : List Char, (∀ c ∈ l, f c = [c]) → (l.map f).flatten = l
  | [], _ => rfl
  | c :: cs, h => by
    rw [List.map_cons, List.flatten_cons, h c (by simp),
      flatten_map_id f cs (fun d hd => h d (List.mem_cons_of_mem c hd))]
    rfl

theorem normChars_shape (l : List Char) :
    goodList (normChars l) ∧ noAdj (normChars l)
      ∧ headOk (normChars l) ∧ lastOk (normChars l) := by
  refine ⟨?_, ?_, headOk_trimList _, lastOk_trimList _⟩
  · intro c hc
    unfold normChars collapseWs at hc
    have h1 := mem_trimList _ c hc
    rcases mem_collapseAux _ false c h1 with h | ⟨hnws, hmem⟩
    · exact Or.inr h
    · rcases mem_map_keepOrSpace _ c hmem with h | h
      · exact Or.inl h
      · exact absurd h (by simp [hnws])
  · unfold normChars collapseWs
    exact noAdj_trimList _ (collapseAux_chain _).1

theorem normChars_fix (l : List Char) (hg : goodList l) (hadj : noAdj l)
    (hh : headOk l) (hl : lastOk l) : normChars l = l := by
  unfold normChars collapseWs
  rw [trimList_eq_self l hh hl]
  rw [map_id_on toLowerChar l (fun c hc => toLowerChar_id c (hg c hc))]
  rw [flatten_map_id nfdChar l (fun c hc => nfdChar_id c (hg c hc))]
  rw [List.filter_eq_self.mpr (fun c hc => notCombining c (hg c hc))]
  rw [map_id_on keepOrSpace l (fun c hc => keepOrSpace_id c (hg c hc))]
  have hall : allWsSpace l := by
    intro c hc hws
    rcases hg c hc with h | h
    · exact absurd (keep_not_ws c h) (by simp [hws])
    · exact h
  rw [(collapseAux_fix l hall hadj).1]
  exact trimList_eq_self l hh hl

/-- Claim C5: the text normalizer is idempotent: normalizing an already
normalized string leaves it unchanged, for every string. -/
theorem normalize_idempotent (s : String) :
    normalize (normalize s) = normalize s := by
  unfold normalize
  have hdata : ((normChars s.data).asString).data = normChars s.data := rfl
  rw [hdata]
  obtain ⟨hg, hadj, hh, hl⟩ := normChars_shape s.data
  rw [normChars_fix _ hg hadj hh hl]

end PLDC
